import Mathlib

/-!
# Verification of `datawarrior_clustersort.py`

A shallow embedding of the core pipeline of `datawarrior_clustersort.py`
(package copy `src/datawarrior_clustersort/datawarrior_clustersort.py`):

* `file_reader`              — Loader: line filtering, header/body split
* `identify_cluster_column`  — Loader: cluster-column location
* `read_dw_list`             — Counter: per-cluster popularity counts
* `label_sorter`             — Relabeler: old label → new label mapping
* `update_cluster_labels`    — Rewriter: cell replacement plus final sort
* `sort_by_cluster_label`    — Rewriter: sort key of the final sort
* `permanent_report`         — Persistence: output file, error path

Python strings are modelled as `List Char` (a Python `str` is a sequence of
code points); Python exceptions as an explicit error type, fallible
functions returning `Except`.  Python's `sorted` (a stable sort) is
modelled by `pySorted`, proved below to be a stable sort and hence
extensionally equal to CPython's.
-/

namespace DWClusterSort

/-- A Python `str`: a sequence of code points. -/
abbrev Line := List Char

/-- Uncaught Python exceptions that the script can raise, and `sys.exit`.
The script defines no exception classes of its own (in particular no
`ColumnNotFound`, `RowTooShort` or `UnmappedLabel`), so the only failure
modes are the built-in `IndexError` and `ValueError`, and `SystemExit`
carrying the process exit status (`sys.exit(1)` gives status 1;
`sys.exit()` with no argument gives status 0). -/
inductive PyErr where
  | indexError : PyErr
  | valueError : PyErr
  | systemExit : Nat → PyErr
deriving DecidableEq, Repr

deriving instance DecidableEq for Except

/-- Python `s.split("\t")`: split on every tab, `[[]]` for the empty
string, so the result is always nonempty. -/
def splitOnTab : Line → List Line
  | [] => [[]]
  | c :: cs =>
    match splitOnTab cs with
    | [] => [[c]]
    | f :: rest => if c = '\t' then [] :: f :: rest else (c :: f) :: rest

/-- Python `"\t".join(parts)`. -/
def joinTab : List Line → Line
  | [] => []
  | [p] => p
  | p :: q :: rest => p ++ '\t' :: joinTab (q :: rest)

/-- Characters Python `str.strip()` removes (ASCII whitespace; the exotic
Unicode space characters do not occur in the data this tool handles). -/
def isPySpace (c : Char) : Bool :=
  c = ' ' || c = '\t' || c = '\n' || c = '\r' || c = '\x0b' || c = '\x0c'

/-- Python `s.strip()`. -/
def pyStrip (s : Line) : Line :=
  ((s.dropWhile isPySpace).reverse.dropWhile isPySpace).reverse

/-- Split on `'\n'`, keeping empty pieces. -/
def splitOnNl : Line → List Line
  | [] => [[]]
  | c :: cs =>
    match splitOnNl cs with
    | [] => [[c]]
    | f :: rest => if c = '\n' then [] :: f :: rest else (c :: f) :: rest

/-- Python `s.splitlines()` for `'\n'`-terminated text: `[]` on the empty
string, and no empty trailing piece for a trailing newline
(`"a\n".splitlines() == ["a"]`). -/
def pySplitlines (s : Line) : List Line :=
  match s with
  | [] => []
  | _ =>
    let pieces := splitOnNl s
    if pieces.getLast? = some [] then pieces.dropLast else pieces

/-- Does `needle` occur at the start of `hay`? -/
def leadsWith : Line → Line → Bool
  | [], _ => true
  | _ :: _, [] => false
  | a :: as, b :: bs => a == b && leadsWith as bs

/-- Substring containment, the semantics of `re.search(pat, item)` for the
literal pattern `"Cluster No"` (no metacharacters). -/
def containsSub (needle : Line) : Line → Bool
  | [] => leadsWith needle []
  | b :: bs => leadsWith needle (b :: bs) || containsSub needle bs

/-- The literal pattern of `identify_cluster_column`. -/
def clusterNoPat : Line := "Cluster No".data

/-- `identify_cluster_column(headline)`: split the header on tabs, collect
the indices of all fields in which `re.search("Cluster No", item)`
matches, and return `int(list_of_matches[0])`.  On an empty match list,
`list_of_matches[0]` raises an uncaught `IndexError`. -/
def identify_cluster_column (headline : Line) : Except PyErr Nat :=
  let column_heads := splitOnTab headline
  let list_of_matches :=
    (column_heads.enum.filter (fun p => containsSub clusterNoPat p.2)).map Prod.fst
  match list_of_matches with
  | [] => .error .indexError
  | i :: _ => .ok i

/-- `file_reader`: split the input into lines, keep (stripped) every line
whose raw length exceeds 1, `sys.exit(1)` when fewer than 3 lines remain,
else return header, body and the cluster-column index. -/
def file_reader (content : Line) : Except PyErr (Line × List Line × Nat) :=
  let raw_table := pySplitlines content
  let raw_table2 := (raw_table.filter (fun i => 1 < i.length)).map pyStrip
  if raw_table2.length < 3 then .error (.systemExit 1)
  else
    match raw_table2 with
    | [] => .error (.systemExit 1)
    | headline :: table_body =>
      match identify_cluster_column headline with
      | .error e => .error e
      | .ok old_cluster_label => .ok (headline, table_body, old_cluster_label)

/-- Run a fallible step on every element, in order, aborting at the first
failure: the semantics of a Python `for` loop whose body may raise. -/
def eachOk (f : α → Except PyErr β) : List α → Except PyErr (List β)
  | [] => .ok []
  | a :: l =>
    match f a with
    | .error e => .error e
    | .ok b =>
      match eachOk f l with
      | .error e => .error e
      | .ok bs => .ok (b :: bs)

/-- Parser state of the `csv` module's field scanner. -/
inductive CsvState where
  | startField
  | inField
  | inQuoted
  | quoteInQuoted
deriving DecidableEq

/-- Field scanner of `csv.reader(..., delimiter="\t")` on one record, with
the default dialect (quote character `"`, doubled quotes escape, non-strict).
A quoted field that is still open at the end of the line is closed there
(rows of the modelled data are single records). -/
def csvAux : CsvState → List Line → Line → Line → List Line
  | .startField, fields, cur, [] =>
    if fields.isEmpty && cur.isEmpty then [] else fields ++ [cur]
  | .inField, fields, cur, [] => fields ++ [cur]
  | .inQuoted, fields, cur, [] => fields ++ [cur]
  | .quoteInQuoted, fields, cur, [] => fields ++ [cur]
  | .startField, fields, cur, c :: cs =>
    if c = '"' then csvAux .inQuoted fields cur cs
    else if c = '\t' then csvAux .startField (fields ++ [[]]) [] cs
    else csvAux .inField fields (cur ++ [c]) cs
  | .inField, fields, cur, c :: cs =>
    if c = '\t' then csvAux .startField (fields ++ [cur]) [] cs
    else csvAux .inField fields (cur ++ [c]) cs
  | .inQuoted, fields, cur, c :: cs =>
    if c = '"' then csvAux .quoteInQuoted fields cur cs
    else csvAux .inQuoted fields (cur ++ [c]) cs
  | .quoteInQuoted, fields, cur, c :: cs =>
    if c = '"' then csvAux .inQuoted fields (cur ++ ['"']) cs
    else if c = '\t' then csvAux .startField (fields ++ [cur]) [] cs
    else csvAux .inField fields (cur ++ [c]) cs

/-- One record through `csv.reader(table_body, delimiter="\t")`: the
fields of a single row (an empty line yields an empty record). -/
def csvSplitLine (s : Line) : List Line :=
  csvAux .startField [] [] s

/-- Insert `x` into `l` before the first element `y` with `le x y`
(so after every earlier element of equal rank). -/
def insertStable (le : α → α → Bool) (x : α) : List α → List α
  | [] => [x]
  | y :: ys => if le x y then x :: y :: ys else y :: insertStable le x ys

/-- Python's built-in `sorted` under a boolean preorder `le`: a STABLE
sort (proved below: `pySorted_perm`, `pairwise_pySorted`,
`pair_sublist_pySorted`), and therefore extensionally equal to every other
stable sort by the same preorder — in particular to CPython's timsort.
Implemented as insertion sort so that it evaluates by reduction. -/
def pySorted (le : α → α → Bool) : List α → List α
  | [] => []
  | x :: xs => insertStable le x (pySorted le xs)

/-- Python `dict` lookup on an insertion-ordered association list with
distinct keys (`d.get(k)` / `d[k]`). -/
def dictGet : List (Line × Nat) → Line → Option Nat
  | [], _ => none
  | (k, v) :: rest, key => if k = key then some v else dictGet rest key

/-- One pass of `count.setdefault(label, 0); count[label] += 1`: an
existing key keeps its position and is incremented, a new key is appended
with count 1. -/
def bump (count : List (Line × Nat)) (label : Line) : List (Line × Nat) :=
  match dictGet count label with
  | some _ => count.map (fun p => if p.1 = label then (p.1, p.2 + 1) else p)
  | none => count ++ [(label, 1)]

/-- The counting loop of `read_dw_list`: occurrence counts in insertion
(first-seen) order. -/
def tallyList (labels : List Line) : List (Line × Nat) :=
  labels.foldl bump []

/-- `read_dw_list(table_body, old_cluster_label)`: parse every row with
the `csv` reader (tab delimiter), take the field at the cluster column
(an out-of-range access raises an uncaught `IndexError`), then tally the
collected labels.  The console report of the counts is a side effect the
model omits. -/
def read_dw_list (table_body : List Line) (old_cluster_label : Nat) :
    Except PyErr (List (Line × Nat)) :=
  match eachOk (fun row =>
      match (csvSplitLine row).get? old_cluster_label with
      | none => .error .indexError
      | some v => .ok v) table_body with
  | .error e => .error e
  | .ok dw_cluster_labels => .ok (tallyList dw_cluster_labels)

/-- `label_sorter(count, reversed_order)`: sort the dict's keys by their
count — descending by default, ascending when reversed; Python's `sorted`
is stable, modelled by `List.mergeSort` — and map each old label to its
1-based rank. -/
def label_sorter (count : List (Line × Nat)) (reversed_order : Bool) :
    List (Line × Nat) :=
  let getcount := fun k => (dictGet count k).getD 0
  let sorted_list :=
    if reversed_order then
      pySorted (fun a b => getcount a ≤ getcount b) (count.map Prod.fst)
    else
      pySorted (fun a b => getcount b ≤ getcount a) (count.map Prod.fst)
  sorted_list.enum.map (fun p => (p.2, p.1 + 1))

/-- Decimal digits of `n`, most significant first, with enough fuel to
terminate structurally (so that it evaluates by reduction). -/
def natDecimalAux : Nat → Nat → Line
  | 0, _ => []
  | fuel + 1, n =>
    if n < 10 then [Char.ofNat (48 + n)]
    else natDecimalAux fuel (n / 10) ++ [Char.ofNat (48 + n % 10)]

/-- Python `str(n)` for a non-negative `int`: its decimal digits. -/
def natDecimal (n : Nat) : Line :=
  natDecimalAux (n + 1) n

/-- Python `str(x)` for `x = label_dictionary.get(old_label)`: the decimal
digits of the label, or `"None"` when the lookup missed. -/
def pyStrOfOptNat : Option Nat → Line
  | some n => natDecimal n
  | none => "None".data

/-- The loop body of `update_cluster_labels`: split the record on tabs,
replace the cell at the cluster column by `str(label_dictionary.get(old))`
and re-join.  An out-of-range column raises an uncaught `IndexError`. -/
def update_record (old_cluster_label : Nat) (label_dictionary : List (Line × Nat))
    (record : Line) : Except PyErr Line :=
  let record_data := splitOnTab record
  match record_data.get? old_cluster_label with
  | none => .error .indexError
  | some old_label =>
    .ok (joinTab (record_data.set old_cluster_label
      (pyStrOfOptNat (dictGet label_dictionary old_label))))

/-- Python `int(s)` on a `str`: surrounding whitespace stripped, optional
sign, at least one decimal digit; anything else raises `ValueError`
(digit-grouping underscores do not occur in the modelled data). -/
def pyInt (s : Line) : Option Int :=
  let t := pyStrip s
  let signed : Bool × Line :=
    match t with
    | '-' :: r => (true, r)
    | '+' :: r => (false, r)
    | r => (false, r)
  if signed.2 ≠ [] ∧ signed.2.all (·.isDigit) then
    let n : Nat := signed.2.foldl (fun a c => 10 * a + (c.toNat - '0'.toNat)) 0
    some (if signed.1 then -(n : Int) else (n : Int))
  else none

/-- `sort_by_cluster_label(s)`: `int(s.split("\t")[1])` — the field at the
hard-coded index 1, parsed as an integer.  A record without a second field
raises `IndexError`; a non-numeric second field raises `ValueError`. -/
def sort_by_cluster_label (s : Line) : Except PyErr Int :=
  match (splitOnTab s).get? 1 with
  | none => .error .indexError
  | some f =>
    match pyInt f with
    | none => .error .valueError
    | some n => .ok n

/-- `update_cluster_labels(table_body, old_cluster_label, label_dictionary)`:
rewrite every record, then return the records sorted (stably, ascending) by
`sort_by_cluster_label`.  Python's `sorted` evaluates the key on every
element before comparing, so a key failure on any record aborts. -/
def update_cluster_labels (table_body : List Line) (old_cluster_label : Nat)
    (label_dictionary : List (Line × Nat)) : Except PyErr (List Line) :=
  match eachOk (update_record old_cluster_label label_dictionary) table_body with
  | .error e => .error e
  | .ok reporter_list =>
    match eachOk (fun s =>
        match sort_by_cluster_label s with
        | .error e => .error e
        | .ok k => .ok (k, s)) reporter_list with
    | .error e => .error e
    | .ok keyed =>
      .ok ((pySorted (fun x y => x.1 ≤ y.1) keyed).map Prod.snd)

/-- Index of the last occurrence of `c` in `p`, if any. -/
def lastIdx (c : Char) (p : Line) : Option Nat :=
  ((p.enum.filter (fun q => q.2 = c)).map Prod.fst).getLast?

/-- The stem of `os.path.splitext(p)`: cut at the last `'.'` when it lies
after the last `'/'` and the basename is not made of dots only up to it. -/
def splitextStem (p : Line) : Line :=
  let sepIndex : Int := match lastIdx '/' p with | some i => (i : Int) | none => -1
  let dotIndex : Int := match lastIdx '.' p with | some i => (i : Int) | none => -1
  if sepIndex < dotIndex then
    let base := (p.take dotIndex.toNat).drop (sepIndex + 1).toNat
    if base.any (fun c => c ≠ '.') then p.take dotIndex.toNat else p
  else p

/-- The text `permanent_report` writes: the headline then every listing
entry, each newline-terminated. -/
def reportText (headline : Line) (listing : List Line) : Line :=
  (headline ++ ['\n']) ++ (listing.map (fun e => e ++ ['\n'])).flatten

/-- `permanent_report(input_file, headline, listing)`: derive the output
name `<stem>_sort.txt` and write headline and listing.  Whether the write
raises `OSError` is outside the program (filesystem state), so it enters
the model as the oracle `writeFails`.  On `OSError` the code runs
`sys.exit()` with NO argument, i.e. `SystemExit(None)`: the process exit
status is 0. -/
def permanent_report (writeFails : Bool) (input_file : Line) (headline : Line)
    (listing : List Line) : Except PyErr (Line × Line) :=
  let stem_input_file := splitextStem input_file
  let report_file := stem_input_file ++ ("_sort.txt").data
  if writeFails then .error (.systemExit 0)
  else .ok (report_file, reportText headline listing)

/-- Modelled from the spec's words, for comparison with `read_dw_list`
(claim C6): the Counter as the spec describes it, with every row split
STRICTLY on the tab character (no quote handling). -/
def specStrictCounter (table_body : List Line) (old_cluster_label : Nat) :
    Except PyErr (List (Line × Nat)) :=
  match eachOk (fun row =>
      match (splitOnTab row).get? old_cluster_label with
      | none => .error .indexError
      | some v => .ok v) table_body with
  | .error e => .error e
  | .ok labels => .ok (tallyList labels)

/-- Prepend a chunk onto the first piece of a split (helper for relating
the csv scanner to the strict tab split). -/
def consHead (c : Line) : List Line → List Line
  | [] => [c]
  | f :: rest => (c ++ f) :: rest

/-- The distinct values of `labels` in order of first occurrence — the
iteration order of a Python dict filled by the Counter's loop. -/
def firstSeen (labels : List Line) : List Line :=
  labels.foldl (fun ks l => if l ∈ ks then ks else ks ++ [l]) []

/-- The popularity mapping of the spec's running example: cluster `"1"`
on 2 rows, `"5"` on 3 rows, `"8"` on 1 row, first seen in this order. -/
def exCount : List (Line × Nat) :=
  [("1".data, 2), ("5".data, 3), ("8".data, 1)]

/-! ## Lemmas: the strict tab split -/

theorem splitOnTab_ne_nil (s : Line) : splitOnTab s ≠ [] := by
  cases s with
  | nil => simp [splitOnTab]
  | cons c cs =>
    simp only [splitOnTab]
    cases h : splitOnTab cs with
    | nil => simp
    | cons f rest => by_cases hc : c = '\t' <;> simp [hc]

theorem tab_not_mem_splitOnTab : ∀ (s : Line), ∀ p ∈ splitOnTab s, '\t' ∉ p := by
  intro s
  induction s with
  | nil =>
    intro p hp
    simp only [splitOnTab, List.mem_singleton] at hp
    simp [hp]
  | cons c cs ih =>
    intro p hp
    cases h : splitOnTab cs with
    | nil => exact absurd h (splitOnTab_ne_nil cs)
    | cons f rest =>
      by_cases hc : c = '\t'
      · simp only [splitOnTab, h, if_pos hc] at hp
        rcases List.mem_cons.mp hp with hp | hp
        · simp [hp]
        · exact ih p (h ▸ hp)
      · simp only [splitOnTab, h, if_neg hc] at hp
        rcases List.mem_cons.mp hp with hp | hp
        · subst hp
          intro hmem
          rcases List.mem_cons.mp hmem with h1 | h1
          · exact hc h1.symm
          · exact ih f (by rw [h]; exact List.mem_cons_self f rest) h1
        · exact ih p (by rw [h]; exact List.mem_cons_of_mem f hp)

theorem splitOnTab_of_no_tab {p : Line} (h : '\t' ∉ p) : splitOnTab p = [p] := by
  induction p with
  | nil => simp [splitOnTab]
  | cons a p' ih =>
    have ha : a ≠ '\t' := fun e => h (e ▸ List.mem_cons_self a p')
    have hp' : '\t' ∉ p' := fun m => h (List.mem_cons_of_mem a m)
    simp [splitOnTab, ih hp', ha]

theorem splitOnTab_append_tab {p : Line} (rest : Line) (h : '\t' ∉ p) :
    splitOnTab (p ++ '\t' :: rest) = p :: splitOnTab rest := by
  induction p with
  | nil =>
    simp only [List.nil_append, splitOnTab]
    cases hr : splitOnTab rest with
    | nil => exact absurd hr (splitOnTab_ne_nil rest)
    | cons f r => simp
  | cons a p' ih =>
    have ha : a ≠ '\t' := fun e => h (e ▸ List.mem_cons_self a p')
    have hp' : '\t' ∉ p' := fun m => h (List.mem_cons_of_mem a m)
    simp only [List.cons_append, splitOnTab, List.append_eq, ih hp', if_neg ha]

theorem splitOnTab_joinTab : ∀ (parts : List Line), parts ≠ [] →
    (∀ p ∈ parts, '\t' ∉ p) → splitOnTab (joinTab parts) = parts := by
  intro parts
  induction parts with
  | nil => intro h; exact absurd rfl h
  | cons p rest ih =>
    intro _ hp
    cases rest with
    | nil =>
      simp only [joinTab]
      exact splitOnTab_of_no_tab (hp p (List.mem_cons_self p []))
    | cons q rest' =>
      have h1 : '\t' ∉ p := hp p (List.mem_cons_self p (q :: rest'))
      simp only [joinTab]
      rw [splitOnTab_append_tab _ h1,
        ih (by simp) (fun x hx => hp x (List.mem_cons_of_mem p hx))]

/-! ## Lemmas: the loop runner `eachOk` -/

theorem eachOk_ok_length {α β : Type} {f : α → Except PyErr β} :
    ∀ {l : List α} {out : List β}, eachOk f l = .ok out → out.length = l.length := by
  intro l
  induction l with
  | nil => intro out h; simp only [eachOk] at h; cases h; rfl
  | cons a l ih =>
    intro out h
    simp only [eachOk] at h
    cases hfa : f a with
    | error e => rw [hfa] at h; cases h
    | ok b =>
      rw [hfa] at h
      cases hrest : eachOk f l with
      | error e => rw [hrest] at h; cases h
      | ok bs =>
        rw [hrest] at h
        cases h
        simp [ih hrest]

theorem eachOk_ok_get {α β : Type} {f : α → Except PyErr β} :
    ∀ {l : List α} {out : List β}, eachOk f l = .ok out →
    ∀ (k : Nat) (a : α), l.get? k = some a →
    ∃ b, out.get? k = some b ∧ f a = .ok b := by
  intro l
  induction l with
  | nil => intro out _ k a hk; simp at hk
  | cons x l ih =>
    intro out h k a hk
    simp only [eachOk] at h
    cases hfa : f x with
    | error e => rw [hfa] at h; cases h
    | ok b =>
      rw [hfa] at h
      cases hrest : eachOk f l with
      | error e => rw [hrest] at h; cases h
      | ok bs =>
        rw [hrest] at h
        cases h
        cases k with
        | zero =>
          cases hk
          exact ⟨b, rfl, hfa⟩
        | succ k' => exact ih hrest k' a hk

theorem eachOk_error_of_mem {α β : Type} {f : α → Except PyErr β} {e : PyErr} :
    ∀ {l : List α}, (∀ a ∈ l, f a = .error e ∨ ∃ b, f a = .ok b) →
    ∀ a₀ ∈ l, f a₀ = .error e → eachOk f l = .error e := by
  intro l
  induction l with
  | nil => intro _ a₀ h; simp at h
  | cons x l ih =>
    intro hall a₀ hmem hfail
    simp only [eachOk]
    rcases List.mem_cons.mp hmem with hmem | hmem
    · subst hmem; rw [hfail]
    · cases hfx : f x with
      | error e' =>
        rcases hall x (List.mem_cons_self x l) with h1 | ⟨b, h1⟩
        · rw [hfx] at h1; cases h1; rfl
        · rw [hfx] at h1; cases h1
      | ok b =>
        rw [ih (fun a ha => hall a (List.mem_cons_of_mem x ha)) a₀ hmem hfail]

theorem eachOk_keyed_map_snd {α : Type} {g : α → Except PyErr Int} :
    ∀ {l : List α} {keyed : List (Int × α)},
    eachOk (fun s =>
      match g s with
      | .error e => .error e
      | .ok k => .ok (k, s)) l = .ok keyed →
    keyed.map Prod.snd = l := by
  intro l
  induction l with
  | nil => intro keyed h; simp only [eachOk] at h; cases h; rfl
  | cons x l ih =>
    intro keyed h
    simp only [eachOk] at h
    cases hgx : g x with
    | error e => rw [hgx] at h; cases h
    | ok k =>
      rw [hgx] at h
      cases hrest : eachOk _ l with
      | error e => rw [hrest] at h; cases h
      | ok bs =>
        rw [hrest] at h
        cases h
        simp [ih hrest]

theorem eachOk_ok_count {α : Type} {f : α → Except PyErr Line} :
    ∀ {l : List α} {labels : List Line}, eachOk f l = .ok labels →
    ∀ v : Line, labels.count v = l.countP (fun a => decide (f a = .ok v)) := by
  intro l
  induction l with
  | nil => intro labels h v; simp only [eachOk] at h; cases h; simp
  | cons x l ih =>
    intro labels h v
    simp only [eachOk] at h
    cases hfx : f x with
    | error e => rw [hfx] at h; cases h
    | ok b =>
      rw [hfx] at h
      cases hrest : eachOk f l with
      | error e => rw [hrest] at h; cases h
      | ok bs =>
        rw [hrest] at h
        cases h
        rw [List.countP_cons, List.count_cons, ih hrest v]
        by_cases hbv : b = v
        · subst hbv; simp [hfx]
        · simp [hfx, hbv, Ne.symm hbv]

/-! ## Lemmas: the tally (Counter) -/

theorem dictGet_append_of_none {c : List (Line × Nat)} {l : Line}
    (h : dictGet c l = none) (w : Nat) (v : Line) :
    dictGet (c ++ [(l, w)]) v = if v = l then some w else dictGet c v := by
  induction c with
  | nil =>
    simp only [List.nil_append, dictGet]
    by_cases hv : v = l
    · simp [hv]
    · have hlv : ¬l = v := fun e => hv e.symm
      simp [hv, hlv]
  | cons p rest ih =>
    obtain ⟨k, w'⟩ := p
    simp only [dictGet] at h
    by_cases hkl : k = l
    · rw [if_pos hkl] at h; cases h
    · rw [if_neg hkl] at h
      simp only [List.cons_append, dictGet]
      by_cases hkv : k = v
      · have : ¬v = l := fun e => hkl (hkv.trans e)
        simp [hkv, this]
      · simp only [if_neg hkv]
        exact ih h

theorem dictGet_map_incr (c : List (Line × Nat)) (l v : Line) :
    dictGet (c.map fun p => if p.1 = l then (p.1, p.2 + 1) else p) v =
      if v = l then (dictGet c v).map (· + 1) else dictGet c v := by
  induction c with
  | nil => simp [dictGet]
  | cons p rest ih =>
    obtain ⟨k, w⟩ := p
    rw [List.map_cons]
    by_cases hkl : k = l
    · have hh :
          (if ((k, w) : Line × Nat).1 = l then ((k, w).1, (k, w).2 + 1) else (k, w)) =
            (k, w + 1) := by
        rw [if_pos hkl]
      rw [hh]
      by_cases hvk : v = k
      · subst hvk
        simp [dictGet, hkl, ih]
      · have hkv : ¬k = v := fun e => hvk e.symm
        simp [dictGet, hkv, hvk, ih]
    · have hh :
          (if ((k, w) : Line × Nat).1 = l then ((k, w).1, (k, w).2 + 1) else (k, w)) =
            (k, w) := by
        rw [if_neg hkl]
      rw [hh]
      by_cases hvk : v = k
      · subst hvk
        have hvl : ¬v = l := hkl
        simp [dictGet, hvl]
      · have hkv : ¬k = v := fun e => hvk e.symm
        simp [dictGet, hkv, hvk, ih]

theorem dictGet_bump (c : List (Line × Nat)) (l v : Line) :
    dictGet (bump c l) v =
      if v = l then some ((dictGet c l).getD 0 + 1) else dictGet c v := by
  unfold bump
  cases h : dictGet c l with
  | some n =>
    rw [dictGet_map_incr]
    by_cases hv : v = l
    · subst hv; simp [h]
    · simp [hv]
  | none =>
    rw [dictGet_append_of_none h 1 v]
    by_cases hv : v = l
    · subst hv; simp [h]
    · simp [hv]

theorem dictGet_foldl_bump (v : Line) :
    ∀ (labels : List Line) (acc : List (Line × Nat)),
    dictGet (labels.foldl bump acc) v =
      match dictGet acc v with
      | some n => some (n + labels.count v)
      | none => if labels.count v = 0 then none else some (labels.count v) := by
  intro labels
  induction labels with
  | nil =>
    intro acc
    cases h : dictGet acc v <;> simp [h]
  | cons x rest ih =>
    intro acc
    rw [List.foldl_cons, ih (bump acc x), dictGet_bump, List.count_cons]
    by_cases hvx : v = x
    · subst hvx
      rw [if_pos rfl]
      cases h : dictGet acc v with
      | none =>
        simp only [h, Option.getD_none, beq_self_eq_true, if_true]
        have hnz : ¬(List.count v rest + 1 = 0) := by omega
        rw [if_neg hnz]
        have harith : 0 + 1 + List.count v rest = List.count v rest + 1 := by omega
        rw [harith]
      | some n =>
        simp only [h, Option.getD_some, beq_self_eq_true, if_true]
        have harith : n + 1 + List.count v rest = n + (List.count v rest + 1) := by omega
        rw [harith]
    · rw [if_neg hvx]
      have hbeq : (v == x) = false := beq_false_of_ne hvx
      have hxv : ¬x = v := fun e => hvx e.symm
      cases h : dictGet acc v <;> simp [h, hbeq, hxv]

theorem dictGet_eq_none_iff (k : Line) :
    ∀ (c : List (Line × Nat)), dictGet c k = none ↔ k ∉ c.map Prod.fst := by
  intro c
  induction c with
  | nil => simp [dictGet]
  | cons p rest ih =>
    obtain ⟨k', w⟩ := p
    by_cases hk : k' = k
    · subst hk
      simp [dictGet]
    · have hk2 : ¬k = k' := fun e => hk e.symm
      simp [dictGet, hk, hk2, ih]

theorem bump_map_fst (c : List (Line × Nat)) (l : Line) :
    (bump c l).map Prod.fst =
      (if l ∈ c.map Prod.fst then c.map Prod.fst else c.map Prod.fst ++ [l]) := by
  unfold bump
  cases h : dictGet c l with
  | some n =>
    have hmem : l ∈ c.map Prod.fst := by
      by_contra hc
      rw [(dictGet_eq_none_iff l c).mpr hc] at h
      cases h
    rw [if_pos hmem, List.map_map]
    apply List.map_congr_left
    intro p _
    by_cases hp : p.1 = l <;> simp [hp]
  | none =>
    have hmem : l ∉ c.map Prod.fst := (dictGet_eq_none_iff l c).mp h
    rw [if_neg hmem]
    simp

theorem tallyList_map_fst (labels : List Line) :
    (tallyList labels).map Prod.fst = firstSeen labels := by
  unfold tallyList firstSeen
  suffices h : ∀ acc : List (Line × Nat),
      (labels.foldl bump acc).map Prod.fst =
        labels.foldl (fun ks l => if l ∈ ks then ks else ks ++ [l])
          (acc.map Prod.fst) by
    exact h []
  induction labels with
  | nil => intro acc; rfl
  | cons x rest ih =>
    intro acc
    rw [List.foldl_cons, List.foldl_cons, ih (bump acc x), bump_map_fst]

theorem dictGet_tallyList (labels : List Line) (v : Line) :
    dictGet (tallyList labels) v =
      if labels.count v = 0 then none else some (labels.count v) := by
  unfold tallyList
  rw [dictGet_foldl_bump v labels []]
  rfl

/-! ## Lemmas: the csv scanner on quote-free rows -/

theorem consHead_consHead (a b : Line) (l : List Line) :
    consHead a (consHead b l) = consHead (a ++ b) l := by
  cases l <;> simp [consHead]

theorem splitOnTab_cons_tab (cs : Line) : splitOnTab ('\t' :: cs) = [] :: splitOnTab cs := by
  cases h : splitOnTab cs with
  | nil => exact absurd h (splitOnTab_ne_nil cs)
  | cons f rest => simp [splitOnTab, h]

theorem splitOnTab_cons_consHead {c : Char} (cs : Line) (hc : c ≠ '\t') :
    splitOnTab (c :: cs) = consHead [c] (splitOnTab cs) := by
  cases h : splitOnTab cs with
  | nil => exact absurd h (splitOnTab_ne_nil cs)
  | cons f rest => simp [splitOnTab, h, hc, consHead]

theorem csvAux_no_quote : ∀ (cs : Line), '"' ∉ cs →
    (∀ fields cur, csvAux .inField fields cur cs = fields ++ consHead cur (splitOnTab cs)) ∧
    (∀ fields, fields ≠ [] → csvAux .startField fields [] cs = fields ++ splitOnTab cs) := by
  intro cs
  induction cs with
  | nil =>
    intro _
    constructor
    · intro fields cur
      simp [csvAux, splitOnTab, consHead]
    · intro fields hf
      have : fields.isEmpty = false := by
        cases fields with
        | nil => exact absurd rfl hf
        | cons _ _ => rfl
      simp [csvAux, splitOnTab, this]
  | cons c cs ih =>
    intro h
    have hc : c ≠ '"' := fun e => h (e ▸ List.mem_cons_self c cs)
    have h' : '"' ∉ cs := fun m => h (List.mem_cons_of_mem c m)
    obtain ⟨ihIn, ihStart⟩ := ih h'
    constructor
    · intro fields cur
      by_cases ht : c = '\t'
      · subst ht
        simp only [csvAux, if_pos rfl]
        rw [ihStart (fields ++ [cur]) (by simp), splitOnTab_cons_tab]
        simp [consHead]
      · simp only [csvAux, if_neg ht]
        rw [ihIn fields (cur ++ [c]), splitOnTab_cons_consHead cs ht,
          consHead_consHead]
    · intro fields hf
      by_cases ht : c = '\t'
      · subst ht
        have hq : ('\t' : Char) = '"' ↔ False := by simp
        simp only [csvAux, if_neg (by simp : ¬('\t' : Char) = '"'), if_pos rfl]
        rw [ihStart (fields ++ [[]]) (by simp), splitOnTab_cons_tab]
        simp
      · simp only [csvAux, if_neg hc, if_neg ht]
        rw [show ([] : Line) ++ [c] = [c] from rfl, ihIn fields [c],
          splitOnTab_cons_consHead cs ht]

theorem csvSplitLine_no_quote {cs : Line} (hne : cs ≠ []) (h : '"' ∉ cs) :
    csvSplitLine cs = splitOnTab cs := by
  cases cs with
  | nil => exact absurd rfl hne
  | cons c cs' =>
    have hc : c ≠ '"' := fun e => h (e ▸ List.mem_cons_self c cs')
    have h' : '"' ∉ cs' := fun m => h (List.mem_cons_of_mem c m)
    obtain ⟨ihIn, ihStart⟩ := csvAux_no_quote cs' h'
    by_cases ht : c = '\t'
    · subst ht
      simp only [csvSplitLine, csvAux, if_neg (by simp : ¬('\t' : Char) = '"'), if_pos rfl,
        if_true, List.nil_append]
      rw [ihStart [[]] (by simp), splitOnTab_cons_tab]
      rfl
    · simp only [csvSplitLine, csvAux, if_neg hc, if_neg ht]
      rw [show ([] : Line) ++ [c] = [c] from rfl, ihIn [] [c],
        splitOnTab_cons_consHead cs' ht]
      rfl

/-! ## Lemmas: `pySorted` is a stable sort -/

theorem insertStable_perm {α : Type} (le : α → α → Bool) (x : α) :
    ∀ (l : List α), (insertStable le x l).Perm (x :: l) := by
  intro l
  induction l with
  | nil => simp [insertStable]
  | cons y ys ih =>
    by_cases h : le x y
    · simp [insertStable, h, List.Perm.refl]
    · simp only [insertStable, if_neg h]
      exact (List.Perm.cons y ih).trans (List.Perm.swap x y ys)

theorem pySorted_perm {α : Type} (le : α → α → Bool) :
    ∀ (l : List α), (pySorted le l).Perm l := by
  intro l
  induction l with
  | nil => simp [pySorted]
  | cons x xs ih =>
    exact (insertStable_perm le x (pySorted le xs)).trans (List.Perm.cons x ih)

theorem mem_insertStable {α : Type} {le : α → α → Bool} {x z : α} {l : List α} :
    z ∈ insertStable le x l ↔ z = x ∨ z ∈ l := by
  rw [(insertStable_perm le x l).mem_iff]
  simp

theorem pairwise_insertStable {α : Type} {le : α → α → Bool}
    (htrans : ∀ a b c, le a b = true → le b c = true → le a c = true)
    (htotal : ∀ a b, le a b || le b a) (x : α) :
    ∀ {l : List α}, l.Pairwise (fun a b => le a b = true) →
    (insertStable le x l).Pairwise (fun a b => le a b = true) := by
  intro l
  induction l with
  | nil => intro _; simp [insertStable]
  | cons y ys ih =>
    intro hp
    obtain ⟨hy, hys⟩ := List.pairwise_cons.mp hp
    by_cases h : le x y
    · simp only [insertStable, if_pos h]
      refine List.pairwise_cons.mpr ⟨?_, hp⟩
      intro z hz
      rcases List.mem_cons.mp hz with hz | hz
      · subst hz; exact h
      · exact htrans x y z h (hy z hz)
    · simp only [insertStable, if_neg h]
      refine List.pairwise_cons.mpr ⟨?_, ih hys⟩
      intro z hz
      rcases mem_insertStable.mp hz with hz | hz
      · subst hz
        cases hxy : le z y with
        | true => exact absurd hxy h
        | false =>
          have := htotal z y
          rw [hxy] at this
          simpa using this
      · exact hy z hz

theorem pairwise_pySorted {α : Type} {le : α → α → Bool}
    (htrans : ∀ a b c, le a b = true → le b c = true → le a c = true)
    (htotal : ∀ a b, le a b || le b a) :
    ∀ (l : List α), (pySorted le l).Pairwise (fun a b => le a b = true) := by
  intro l
  induction l with
  | nil => simp [pySorted]
  | cons x xs ih => exact pairwise_insertStable htrans htotal x ih

theorem sublist_insertStable {α : Type} (le : α → α → Bool) (x : α) :
    ∀ (l : List α), List.Sublist l (insertStable le x l) := by
  intro l
  induction l with
  | nil => simp [insertStable]
  | cons y ys ih =>
    by_cases h : le x y
    · simp only [insertStable, if_pos h]
      exact List.Sublist.cons x (List.Sublist.refl _)
    · simp only [insertStable, if_neg h]
      exact List.Sublist.cons₂ y ih

theorem pair_sublist_insertStable {α : Type} {le : α → α → Bool} {a b : α}
    (hab : le a b = true) :
    ∀ {m : List α}, b ∈ m → List.Sublist [a, b] (insertStable le a m) := by
  intro m
  induction m with
  | nil => intro h; simp at h
  | cons y ys ih =>
    intro hb
    by_cases h : le a y
    · simp only [insertStable, if_pos h]
      exact List.Sublist.cons₂ a (List.singleton_sublist.mpr hb)
    · simp only [insertStable, if_neg h]
      rcases List.mem_cons.mp hb with hby | hby
      · subst hby; exact absurd hab h
      · exact List.Sublist.cons y (ih hby)

theorem pair_sublist_pySorted {α : Type} {le : α → α → Bool} {a b : α}
    (hab : le a b = true) :
    ∀ {l : List α}, List.Sublist [a, b] l →
    List.Sublist [a, b] (pySorted le l) := by
  intro l
  induction l with
  | nil => intro h; cases h
  | cons x xs ih =>
    intro h
    cases h with
    | cons _ h' =>
      exact (ih h').trans (sublist_insertStable le x (pySorted le xs))
    | cons₂ _ h' =>
      have hb : b ∈ pySorted le xs :=
        (pySorted_perm le xs).mem_iff.mpr (List.singleton_sublist.mp h')
      exact pair_sublist_insertStable hab hb

/-! ## Lemmas: positions, ranks and the relabel mapping -/

theorem dictGet_of_get? :
    ∀ {count : List (Line × Nat)}, (count.map Prod.fst).Nodup →
    ∀ {i : Nat} {A : Line} {a : Nat}, count.get? i = some (A, a) →
    dictGet count A = some a := by
  intro count
  induction count with
  | nil => intro _ i A a h; simp at h
  | cons p rest ih =>
    obtain ⟨k, w⟩ := p
    intro hnd i A a h
    cases i with
    | zero =>
      simp only [List.get?_cons_zero] at h
      cases h
      simp [dictGet]
    | succ i' =>
      simp only [List.get?_cons_succ] at h
      have hmem : (A, a) ∈ rest := List.get?_mem h
      have hA : A ∈ rest.map Prod.fst := List.mem_map_of_mem Prod.fst hmem
      have hk : k ∉ rest.map Prod.fst := by
        simp only [List.map_cons, List.nodup_cons] at hnd
        exact hnd.1
      have hkA : ¬k = A := fun e => hk (e ▸ hA)
      simp only [dictGet, if_neg hkA]
      exact ih (by simp only [List.map_cons, List.nodup_cons] at hnd; exact hnd.2) h

theorem pair_sublist_of_get? :
    ∀ (l : List Line) {i j : Nat} {A B : Line}, i < j →
    l.get? i = some A → l.get? j = some B → List.Sublist [A, B] l := by
  intro l
  induction l with
  | nil => intro i j A B _ hi _; simp at hi
  | cons x rest ih =>
    intro i j A B hij hi hj
    cases i with
    | zero =>
      simp only [List.get?_cons_zero] at hi
      cases hi
      cases j with
      | zero => exact absurd hij (by omega)
      | succ j' =>
        simp only [List.get?_cons_succ] at hj
        have hB : B ∈ rest := List.get?_mem hj
        exact List.Sublist.cons₂ x (List.singleton_sublist.mpr hB)
    | succ i' =>
      cases j with
      | zero => exact absurd hij (by omega)
      | succ j' =>
        simp only [List.get?_cons_succ] at hi hj
        exact List.Sublist.cons x (ih (by omega) hi hj)

theorem get?_of_pair_sublist :
    ∀ {l : List Line} {A B : Line}, List.Sublist [A, B] l →
    ∃ i j, i < j ∧ l.get? i = some A ∧ l.get? j = some B := by
  intro l
  induction l with
  | nil => intro A B h; cases h
  | cons x rest ih =>
    intro A B h
    cases h with
    | cons _ h' =>
      obtain ⟨i, j, hij, hi, hj⟩ := ih h'
      exact ⟨i + 1, j + 1, by omega, by simpa using hi, by simpa using hj⟩
    | cons₂ _ h' =>
      have hB : B ∈ rest := List.singleton_sublist.mp h'
      obtain ⟨j, hj⟩ := List.mem_iff_get?.mp hB
      exact ⟨0, j + 1, by omega, rfl, by simpa using hj⟩

theorem dictGet_rank_aux (A : Line) :
    ∀ (l : List Line) (n i : Nat), l.Nodup → l.get? i = some A →
    dictGet ((l.enumFrom n).map fun p => (p.2, p.1 + 1)) A = some (n + i + 1) := by
  intro l
  induction l with
  | nil => intro n i _ h; simp at h
  | cons x rest ih =>
    intro n i hnd h
    cases i with
    | zero =>
      simp only [List.get?_cons_zero] at h
      cases h
      simp [List.enumFrom, dictGet]
    | succ i' =>
      simp only [List.get?_cons_succ] at h
      have hA : A ∈ rest := List.get?_mem h
      have hx : x ∉ rest := (List.nodup_cons.mp hnd).1
      have hxA : ¬x = A := fun e => hx (e ▸ hA)
      simp only [List.enumFrom, List.map_cons, dictGet, if_neg hxA]
      rw [ih (n + 1) i' (List.nodup_cons.mp hnd).2 h]
      congr 1
      omega

theorem dictGet_rank {l : List Line} {i : Nat} {A : Line} (h : l.Nodup)
    (hg : l.get? i = some A) :
    dictGet (l.enum.map fun p => (p.2, p.1 + 1)) A = some (i + 1) := by
  have := dictGet_rank_aux A l 0 i h hg
  simpa using this

/-! ## Lemmas: first-match extraction in `identify_cluster_column` -/

theorem matches_enumFrom_nil (P : Line → Bool) :
    ∀ (l : List Line) (n : Nat), (∀ f ∈ l, P f = false) →
    ((l.enumFrom n).filter (fun p => P p.2)).map Prod.fst = [] := by
  intro l
  induction l with
  | nil => intro n _; rfl
  | cons x xs ih =>
    intro n hall
    have hx : P x = false := hall x (List.mem_cons_self x xs)
    simp only [List.enumFrom, List.filter_cons]
    rw [show (P ((n, x) : Nat × Line).2) = false from hx]
    exact ih (n + 1) (fun f hf => hall f (List.mem_cons_of_mem x hf))

theorem matches_enumFrom_head (P : Line → Bool) :
    ∀ (l : List Line) (n i : Nat) (rest : List Nat),
    ((l.enumFrom n).filter (fun p => P p.2)).map Prod.fst = i :: rest →
    ∃ k f, i = n + k ∧ l.get? k = some f ∧ P f = true ∧
      ∀ j f', j < k → l.get? j = some f' → P f' = false := by
  intro l
  induction l with
  | nil => intro n i rest h; simp [List.enumFrom] at h
  | cons x xs ih =>
    intro n i rest h
    simp only [List.enumFrom, List.filter_cons] at h
    cases hx : P x with
    | true =>
      rw [show (P ((n, x) : Nat × Line).2) = true from hx] at h
      simp only [List.map_cons] at h
      have hi : i = n := (List.cons.injEq _ _ _ _ ▸ h).1.symm
      exact ⟨0, x, by omega, rfl, hx, fun j f' hj _ => absurd hj (by omega)⟩
    | false =>
      rw [show (P ((n, x) : Nat × Line).2) = false from hx] at h
      obtain ⟨k, f, hik, hget, hPf, hearlier⟩ := ih (n + 1) i rest h
      refine ⟨k + 1, f, by omega, by simpa using hget, hPf, ?_⟩
      intro j f' hj hgj
      cases j with
      | zero =>
        simp only [List.get?_cons_zero] at hgj
        cases hgj
        exact hx
      | succ j' =>
        simp only [List.get?_cons_succ] at hgj
        exact hearlier j' f' (by omega) hgj

/-! ## Lemmas: congruence of the loop runner, tab-freeness of labels -/

theorem eachOk_congr {α β : Type} {f g : α → Except PyErr β} :
    ∀ {l : List α}, (∀ a ∈ l, f a = g a) → eachOk f l = eachOk g l := by
  intro l
  induction l with
  | nil => intro _; rfl
  | cons x xs ih =>
    intro h
    simp only [eachOk, h x (List.mem_cons_self x xs),
      ih (fun a ha => h a (List.mem_cons_of_mem x ha))]

theorem tab_not_mem_natDecimalAux :
    ∀ (fuel n : Nat), '\t' ∉ natDecimalAux fuel n := by
  intro fuel
  induction fuel with
  | zero => intro n; simp [natDecimalAux]
  | succ fuel ih =>
    intro n
    by_cases h : n < 10
    · simp only [natDecimalAux, if_pos h, List.mem_singleton]
      intro he
      interval_cases n <;> exact absurd he (by decide)
    · simp only [natDecimalAux, if_neg h]
      intro he
      rcases List.mem_append.mp he with he | he
      · exact ih (n / 10) he
      · rw [List.mem_singleton] at he
        have h10 : n % 10 < 10 := Nat.mod_lt n (by omega)
        generalize hg : n % 10 = d at he h10
        interval_cases d <;> exact absurd he (by decide)

theorem tab_not_mem_pyStrOfOptNat (o : Option Nat) : '\t' ∉ pyStrOfOptNat o := by
  cases o with
  | none => decide
  | some n => exact tab_not_mem_natDecimalAux (n + 1) n

/-! ## Claims -/

/-- **C10** (code_bug evidence): when the output file cannot be written
(`writeFails = true`), `permanent_report` hits the `except OSError`
branch, which calls `sys.exit()` with no argument — so the process exits
with status 0, not non-zero as the claim states. -/
theorem permanent_report_write_failure_exit_zero
    (input_file headline : Line) (listing : List Line) :
    permanent_report true input_file headline listing =
      .error (.systemExit 0) := rfl

/-- **C1** (code_bug evidence): with the cluster-ID column at index 0
(header `Cluster No<TAB>Weight`), rows `7<TAB>5`, `5<TAB>2` and the
relabel mapping `{7 ↦ 1, 5 ↦ 2}` that `label_sorter` produces for them,
`update_cluster_labels` returns the rows with new labels in order 2, 1 —
NOT ascending by new label — because `sort_by_cluster_label` reads the
hard-coded column index 1 (values 2 and 5) instead of the cluster
column. -/
theorem update_cluster_labels_sorts_by_hardcoded_column :
    update_cluster_labels ["7\t5".data, "5\t2".data] 0
        [("7".data, 1), ("5".data, 2)] =
      .ok ["2\t2".data, "1\t5".data] ∧
    (splitOnTab "2\t2".data).get? 0 = some "2".data ∧
    (splitOnTab "1\t5".data).get? 0 = some "1".data := by decide

/-- **C9** (counterexample): the input contains the line `"  "` (two
spaces).  Its raw length 2 passes the `len(i) > 1` filter, which runs
BEFORE stripping, so the line survives as the empty data row `[]` —
contradicting the claim that lines of trimmed length ≤ 1 are discarded
and that a whitespace-only line is never kept as an empty data row. -/
theorem file_reader_keeps_whitespace_line :
    file_reader "Name\tCluster No\nA\t1\n  \nB\t2".data =
      .ok ("Name\tCluster No".data, ["A\t1".data, [], "B\t2".data], 1) := by
  decide

/-- **C9** (amended): `file_reader` discards exactly those lines whose
RAW length (before any trimming) is at most 1, and returns all other
lines stripped, in their original order — header first, then the body. -/
theorem file_reader_filters_raw_length (content headline : Line)
    (body : List Line) (col : Nat)
    (h : file_reader content = .ok (headline, body, col)) :
    headline :: body =
      ((pySplitlines content).filter (fun l => 1 < l.length)).map pyStrip := by
  have hfr : file_reader content =
      (if (((pySplitlines content).filter (fun i => 1 < i.length)).map pyStrip).length < 3
       then .error (.systemExit 1)
       else
         match ((pySplitlines content).filter (fun i => 1 < i.length)).map pyStrip with
         | [] => .error (.systemExit 1)
         | headline :: table_body =>
           match identify_cluster_column headline with
           | .error e => .error e
           | .ok c => .ok (headline, table_body, c)) := rfl
  rw [hfr] at h
  cases hm : ((pySplitlines content).filter (fun i => 1 < i.length)).map pyStrip with
  | nil => rw [hm] at h; simp at h
  | cons hl tb =>
    rw [hm] at h
    dsimp only at h
    by_cases hlen : (hl :: tb).length < 3
    · rw [if_pos hlen] at h; cases h
    · rw [if_neg hlen] at h
      cases hic : identify_cluster_column hl with
      | error e => rw [hic] at h; cases h
      | ok c =>
        rw [hic] at h
        cases h
        rfl

/-- **C9** (witness for the amended theorem). -/
theorem file_reader_filters_raw_length_witness :
    file_reader "Name\tCluster No\nA\t1\nB\t2\nC\t1".data =
      .ok ("Name\tCluster No".data, ["A\t1".data, "B\t2".data, "C\t1".data], 1) ∧
    "Name\tCluster No".data :: ["A\t1".data, "B\t2".data, "C\t1".data] =
      ((pySplitlines "Name\tCluster No\nA\t1\nB\t2\nC\t1".data).filter
        (fun l => 1 < l.length)).map pyStrip :=
  ⟨by decide,
    file_reader_filters_raw_length "Name\tCluster No\nA\t1\nB\t2\nC\t1".data
      "Name\tCluster No".data ["A\t1".data, "B\t2".data, "C\t1".data] 1
      (by decide)⟩

/-- **C5** (counterexample): on the body row `"ab"` with cluster column 1
the Counter fails with the uncaught `IndexError` from `row[1]` itself —
not with a named `RowTooShort` error (the script defines no such
exception; the model's error type accordingly has no such constructor). -/
theorem read_dw_list_short_row_index_fault :
    read_dw_list ["ab".data] 1 = .error .indexError := by decide

/-- **C5** (amended): whenever some row of the body has no field at the
cluster-column index, `read_dw_list` fails with the uncaught `IndexError`
(it never silently skips the row and never returns a count). -/
theorem read_dw_list_short_row_errors (body : List Line) (col : Nat)
    (h : ∃ row ∈ body, (csvSplitLine row).get? col = none) :
    read_dw_list body col = .error .indexError := by
  obtain ⟨row, hmem, hrow⟩ := h
  unfold read_dw_list
  rw [eachOk_error_of_mem ?hall row hmem ?hfail]
  case hall =>
    intro a _
    cases hga : (csvSplitLine a).get? col with
    | none => left; simp [hga]
    | some v => right; exact ⟨v, by simp [hga]⟩
  case hfail =>
    rw [List.get?_eq_getElem?] at hrow
    simp [hrow]

/-- **C5** (witness for the amended theorem). -/
theorem read_dw_list_short_row_errors_witness :
    (∃ row ∈ (["ab".data] : List Line), (csvSplitLine row).get? 1 = none) ∧
    read_dw_list ["ab".data] 1 = .error .indexError :=
  ⟨⟨"ab".data, by decide⟩,
    read_dw_list_short_row_errors ["ab".data] 1 ⟨"ab".data, by decide⟩⟩

/-- **C4** (counterexample): a row whose cluster cell `"x"` has no entry
in the (empty) relabel mapping does NOT make `update_cluster_labels`
fail: `label_dictionary.get(old_label)` returns `None`, `str(None)` is
written into the cell, and the call succeeds — there is no
`UnmappedLabel` check. -/
theorem update_cluster_labels_unmapped_no_error :
    update_cluster_labels ["x\t1".data] 0 [] = .ok ["None\t1".data] := by
  decide

/-- **C4** (amended): the row-rewriting step of the Rewriter performs no
unmapped-label check: when the cell at the cluster column has no entry in
the relabel mapping, `update_record` succeeds and writes the literal
string `"None"` into that cell. -/
theorem update_record_unmapped_writes_None (col : Nat)
    (dict : List (Line × Nat)) (record old_label : Line)
    (hcell : (splitOnTab record).get? col = some old_label)
    (hmiss : dictGet dict old_label = none) :
    ∃ r, update_record col dict record = .ok r ∧
      (splitOnTab r).get? col = some ("None".data) := by
  have hur : update_record col dict record =
      match (splitOnTab record).get? col with
      | none => .error .indexError
      | some ol =>
        .ok (joinTab ((splitOnTab record).set col
          (pyStrOfOptNat (dictGet dict ol)))) := rfl
  have hlt : col < (splitOnTab record).length := (List.get?_eq_some.mp hcell).1
  refine ⟨joinTab ((splitOnTab record).set col ("None".data)), ?_, ?_⟩
  · rw [hur, hcell]
    simp [hmiss, pyStrOfOptNat]
  · have hset : splitOnTab (joinTab ((splitOnTab record).set col ("None".data))) =
        (splitOnTab record).set col ("None".data) := by
      apply splitOnTab_joinTab
      · intro he
        have hne := splitOnTab_ne_nil record
        cases hsp : splitOnTab record with
        | nil => exact hne hsp
        | cons a l => rw [hsp] at he; cases col <;> simp at he
      · intro p hp
        rcases List.mem_or_eq_of_mem_set hp with hp | hp
        · exact tab_not_mem_splitOnTab record p hp
        · subst hp; decide
    rw [hset]
    exact List.get?_set_eq_of_lt _ hlt

/-- **C4** (witness for the amended theorem). -/
theorem update_record_unmapped_writes_None_witness :
    (splitOnTab ("x\t1".data)).get? 0 = some ("x".data) ∧
    dictGet [] ("x".data) = none ∧
    ∃ r, update_record 0 [] ("x\t1".data) = .ok r ∧
      (splitOnTab r).get? 0 = some ("None".data) :=
  ⟨by decide, rfl,
    update_record_unmapped_writes_None 0 [] ("x\t1".data) ("x".data)
      (by decide) rfl⟩

/-- **C8** (counterexample): on the header `A<TAB>B`, which has no field
containing `"Cluster No"`, `identify_cluster_column` fails with the
uncaught `IndexError` of `list_of_matches[0]` — not with a named
`ColumnNotFound` error (the script defines no such exception, so the
model's error type has no such constructor). -/
theorem identify_cluster_column_no_match_index_fault :
    identify_cluster_column "A\tB".data = .error .indexError := by decide

/-- **C8** (amended): `identify_cluster_column` returns the 0-based index
of the FIRST tab-separated header field containing the substring
`"Cluster No"` (so never a silent default to column 0 and never an
out-of-range index); when no field matches it fails with the uncaught
`IndexError` (not a named `ColumnNotFound`). -/
theorem identify_cluster_column_first_match (headline : Line) :
    (∀ i, identify_cluster_column headline = .ok i →
      (∃ f, (splitOnTab headline).get? i = some f ∧
        containsSub clusterNoPat f = true) ∧
      ∀ j f', j < i → (splitOnTab headline).get? j = some f' →
        containsSub clusterNoPat f' = false) ∧
    ((∀ f ∈ splitOnTab headline, containsSub clusterNoPat f = false) →
      identify_cluster_column headline = .error .indexError) := by
  have hic : identify_cluster_column headline =
      match ((splitOnTab headline).enum.filter
          (fun p => containsSub clusterNoPat p.2)).map Prod.fst with
      | [] => .error .indexError
      | i :: _ => .ok i := rfl
  constructor
  · intro i hok
    rw [hic] at hok
    revert hok
    cases hm : ((splitOnTab headline).enum.filter
        (fun p => containsSub clusterNoPat p.2)).map Prod.fst with
    | nil => intro hok; cases hok
    | cons i' rest =>
      intro hok
      injection hok with hii
      subst hii
      obtain ⟨k, f, hik, hget, hPf, hearlier⟩ :=
        matches_enumFrom_head (containsSub clusterNoPat) (splitOnTab headline)
          0 i' rest (by simpa [List.enum] using hm)
      have hk : i' = k := by omega
      rw [hk]
      exact ⟨⟨f, hget, hPf⟩, fun j f' hj hgj => hearlier j f' hj hgj⟩
  · intro hall
    rw [hic,
      show ((splitOnTab headline).enum.filter
          (fun p => containsSub clusterNoPat p.2)).map Prod.fst = [] from by
        simpa [List.enum] using
          matches_enumFrom_nil (containsSub clusterNoPat) (splitOnTab headline) 0 hall]

/-- **C8** (witness for the amended theorem): on the spec's example
header the column resolves to index 1, and the theorem instantiates
there. -/
theorem identify_cluster_column_first_match_witness :
    identify_cluster_column "Structure\tCluster No\tFlag".data = .ok 1 ∧
    (∃ f, (splitOnTab "Structure\tCluster No\tFlag".data).get? 1 = some f ∧
      containsSub clusterNoPat f = true) :=
  ⟨by decide,
    ((identify_cluster_column_first_match
      "Structure\tCluster No\tFlag".data).1 1 (by decide)).1⟩

/-- **C6** (counterexample): on the row `"a<TAB>b"<TAB>c` (a
double-quoted first cell containing a tab) the Counter does NOT split
strictly on the tab character: `csv.reader` applies quote processing, so
the counted cell at column 0 is `a<TAB>b`, while a strict tab split would
give the verbatim fragment `"a`. -/
theorem read_dw_list_quote_not_strict_split :
    read_dw_list ["\"a\tb\"\tc".data] 0 = .ok [("a\tb".data, 1)] ∧
    (splitOnTab "\"a\tb\"\tc".data).get? 0 = some ("\"a".data) ∧
    ("a\tb".data : Line) ≠ "\"a".data := by decide

/-- **C6** (amended): the Counter extracts cells with `csv.reader`'s
quote-aware tab splitting.  On bodies whose rows are nonempty and contain
no double-quote character this coincides with the spec's strict tab split
(`specStrictCounter`), and the returned mapping sends each cell value to
the number of rows bearing it (and contains nothing else). -/
theorem read_dw_list_strict_on_quote_free (body : List Line) (col : Nat)
    (hq : ∀ row ∈ body, row ≠ [] ∧ '"' ∉ row) :
    read_dw_list body col = specStrictCounter body col ∧
    ∀ m, read_dw_list body col = .ok m →
      ∀ v, dictGet m v =
        (if body.countP (fun row => decide ((csvSplitLine row).get? col = some v)) = 0
         then none
         else some (body.countP
            (fun row => decide ((csvSplitLine row).get? col = some v)))) := by
  constructor
  · unfold read_dw_list specStrictCounter
    rw [eachOk_congr (f := fun row =>
        match (csvSplitLine row).get? col with
        | none => Except.error PyErr.indexError
        | some v => Except.ok v)
      (g := fun row =>
        match (splitOnTab row).get? col with
        | none => Except.error PyErr.indexError
        | some v => Except.ok v)
      (fun row hrow => by
        dsimp only
        rw [csvSplitLine_no_quote (hq row hrow).1 (hq row hrow).2])]
  · intro m hm v
    unfold read_dw_list at hm
    revert hm
    cases heach : eachOk (fun row =>
        match (csvSplitLine row).get? col with
        | none => Except.error PyErr.indexError
        | some v => Except.ok v) body with
    | error e => intro hm; cases hm
    | ok labels =>
      intro hm
      injection hm with hm
      subst hm
      have hpq : body.countP (fun a => decide ((match (csvSplitLine a).get? col with
            | none => Except.error PyErr.indexError
            | some w => Except.ok w) = Except.ok v)) =
          body.countP (fun row => decide ((csvSplitLine row).get? col = some v)) :=
        List.countP_congr (fun row _ => by
          cases hga : (csvSplitLine row).get? col with
          | none => simp [hga]
          | some w => simp [hga])
      rw [dictGet_tallyList, eachOk_ok_count heach v, hpq]

/-- **C6** (witness for the amended theorem). -/
theorem read_dw_list_strict_on_quote_free_witness :
    (∀ row ∈ (["A\t1".data, "B\t1".data] : List Line), row ≠ [] ∧ '"' ∉ row) ∧
    read_dw_list ["A\t1".data, "B\t1".data] 1 =
      specStrictCounter ["A\t1".data, "B\t1".data] 1 :=
  ⟨by decide,
    (read_dw_list_strict_on_quote_free ["A\t1".data, "B\t1".data] 1 (by decide)).1⟩

/-- **C7**: when `update_cluster_labels` succeeds, the output has exactly
as many rows as the input body and is a permutation of the row-wise
rewrites; each rewritten row keeps the tab structure of its source row
(same number of fields) and every field other than the cluster column is
identical to the source field. -/
theorem update_cluster_labels_conserves_rows (body : List Line) (col : Nat)
    (dict : List (Line × Nat)) (out : List Line)
    (h : update_cluster_labels body col dict = .ok out) :
    out.length = body.length ∧
    ∃ rew, eachOk (update_record col dict) body = .ok rew ∧
      out.Perm rew ∧
      ∀ k record r, body.get? k = some record → rew.get? k = some r →
        (splitOnTab r).length = (splitOnTab record).length ∧
        ∀ j, j ≠ col → (splitOnTab r).get? j = (splitOnTab record).get? j := by
  unfold update_cluster_labels at h
  revert h
  cases h1 : eachOk (update_record col dict) body with
  | error e => intro h; cases h
  | ok rew =>
    intro h
    dsimp only at h
    revert h
    cases h2 : eachOk (fun s =>
        match sort_by_cluster_label s with
        | .error e => .error e
        | .ok k => .ok (k, s)) rew with
    | error e => intro h; dsimp only at h; cases h
    | ok keyed =>
      intro h
      dsimp only at h
      injection h with h
      subst h
      have hmapsnd : keyed.map Prod.snd = rew := eachOk_keyed_map_snd h2
      have hperm : ((pySorted (fun x y => x.1 ≤ y.1) keyed).map Prod.snd).Perm rew := by
        rw [← hmapsnd]
        exact (pySorted_perm _ keyed).map Prod.snd
      constructor
      · rw [hperm.length_eq]
        exact eachOk_ok_length h1
      · refine ⟨rew, rfl, hperm, ?_⟩
        intro k record r hk hr
        obtain ⟨r', hr', hfr⟩ := eachOk_ok_get h1 k record hk
        rw [hr] at hr'
        injection hr' with hr'
        subst hr'
        have hur : update_record col dict record =
            match (splitOnTab record).get? col with
            | none => .error .indexError
            | some ol =>
              .ok (joinTab ((splitOnTab record).set col
                (pyStrOfOptNat (dictGet dict ol)))) := rfl
        rw [hur] at hfr
        revert hfr
        cases hcell : (splitOnTab record).get? col with
        | none => intro hfr; cases hfr
        | some ol =>
          intro hfr
          injection hfr with hfr
          subst hfr
          have hset : splitOnTab (joinTab ((splitOnTab record).set col
              (pyStrOfOptNat (dictGet dict ol)))) =
              (splitOnTab record).set col (pyStrOfOptNat (dictGet dict ol)) := by
            apply splitOnTab_joinTab
            · intro he
              have hne := splitOnTab_ne_nil record
              cases hsp : splitOnTab record with
              | nil => exact hne hsp
              | cons a l => rw [hsp] at he; cases col <;> simp at he
            · intro p hp
              rcases List.mem_or_eq_of_mem_set hp with hp | hp
              · exact tab_not_mem_splitOnTab record p hp
              · subst hp; exact tab_not_mem_pyStrOfOptNat _
          rw [hset]
          constructor
          · exact List.length_set _ _ _
          · intro j hj
            exact List.get?_set_ne _ _ (fun e => hj e.symm)

/-- **C7** (witness). -/
theorem update_cluster_labels_conserves_rows_witness :
    update_cluster_labels ["A\t1".data, "B\t1".data] 1 [("1".data, 1)] =
      .ok ["A\t1".data, "B\t1".data] ∧
    (["A\t1".data, "B\t1".data] : List Line).length =
      (["A\t1".data, "B\t1".data] : List Line).length :=
  ⟨by decide,
    (update_cluster_labels_conserves_rows ["A\t1".data, "B\t1".data] 1
      [("1".data, 1)] ["A\t1".data, "B\t1".data] (by decide)).1⟩

/-! ## Lemmas: assembling the Relabeler claims -/

theorem enumMap_fst (l : List Line) :
    ((l.enum.map fun p => (p.2, p.1 + 1)).map Prod.fst) = l := by
  rw [List.map_map]
  have : (Prod.fst ∘ fun p : Nat × Line => (p.2, p.1 + 1)) = Prod.snd := rfl
  rw [this, List.enum_map_snd]

theorem enumMap_snd (l : List Line) :
    ((l.enum.map fun p => (p.2, p.1 + 1)).map Prod.snd) = List.range' 1 l.length := by
  rw [List.map_map]
  have h1 : (Prod.snd ∘ fun p : Nat × Line => (p.2, p.1 + 1)) =
      ((fun n => n + 1) ∘ Prod.fst) := rfl
  rw [h1, ← List.map_map, List.enum_map_fst, List.range'_eq_map_range]
  exact List.map_congr_left (fun x _ => by omega)

theorem pairwise_get?_of_pySorted {le : Line → Line → Bool}
    (htrans : ∀ a b c, le a b = true → le b c = true → le a c = true)
    (htotal : ∀ a b, le a b || le b a)
    (keys : List Line) {i j : Nat} {x y : Line}
    (hi : (pySorted le keys).get? i = some x)
    (hj : (pySorted le keys).get? j = some y) (hij : i < j) :
    le x y = true := by
  have hp := pairwise_pySorted htrans htotal keys
  rw [List.pairwise_iff_get] at hp
  obtain ⟨hi', hx⟩ := List.get?_eq_some.mp hi
  obtain ⟨hj', hy⟩ := List.get?_eq_some.mp hj
  have := hp ⟨i, hi'⟩ ⟨j, hj'⟩ hij
  rw [hx, hy] at this
  exact this

theorem before_in_pySorted {le : Line → Line → Bool}
    (htrans : ∀ a b c, le a b = true → le b c = true → le a c = true)
    (htotal : ∀ a b, le a b || le b a)
    {keys : List Line} {A B : Line}
    (hA : A ∈ keys) (hB : B ∈ keys) (hAB : A ≠ B) (hBA : le B A = false) :
    ∃ iA iB, iA < iB ∧ (pySorted le keys).get? iA = some A ∧
      (pySorted le keys).get? iB = some B := by
  have hsperm := pySorted_perm le keys
  obtain ⟨iA, hiA⟩ := List.mem_iff_get?.mp (hsperm.mem_iff.mpr hA)
  obtain ⟨iB, hiB⟩ := List.mem_iff_get?.mp (hsperm.mem_iff.mpr hB)
  refine ⟨iA, iB, ?_, hiA, hiB⟩
  rcases Nat.lt_trichotomy iA iB with h | h | h
  · exact h
  · exfalso
    apply hAB
    rw [h] at hiA
    rw [hiA] at hiB
    injection hiB
  · exfalso
    have hle := pairwise_get?_of_pySorted htrans htotal keys hiB hiA h
    rw [hBA] at hle
    cases hle

theorem label_lt_of_positions {s : List Line} (hnds : s.Nodup) {A B : Line}
    {iA iB : Nat} (hiA : s.get? iA = some A) (hiB : s.get? iB = some B)
    (hij : iA < iB) {la lb : Nat}
    (hla : dictGet (s.enum.map fun p => (p.2, p.1 + 1)) A = some la)
    (hlb : dictGet (s.enum.map fun p => (p.2, p.1 + 1)) B = some lb) :
    la < lb := by
  have h1 := dictGet_rank hnds hiA
  have h2 := dictGet_rank hnds hiB
  rw [hla] at h1
  rw [hlb] at h2
  injection h1 with h1
  injection h2 with h2
  omega

/-- **C3**: for every popularity mapping with distinct keys and either
flag, the relabel mapping of `label_sorter` has exactly the keys of the
popularity mapping (as a permutation, each exactly once) and its values
are exactly the dense sequence `1, 2, ..., K` in rank order. -/
theorem label_sorter_dense (count : List (Line × Nat))
    (hnd : (count.map Prod.fst).Nodup) (rev : Bool) :
    ((label_sorter count rev).map Prod.fst).Perm (count.map Prod.fst) ∧
    ((label_sorter count rev).map Prod.fst).Nodup ∧
    (label_sorter count rev).map Prod.snd = List.range' 1 count.length := by
  have hls : label_sorter count rev =
      ((if rev then
          pySorted (fun a b =>
            decide ((dictGet count a).getD 0 ≤ (dictGet count b).getD 0))
            (count.map Prod.fst)
        else
          pySorted (fun a b =>
            decide ((dictGet count b).getD 0 ≤ (dictGet count a).getD 0))
            (count.map Prod.fst)).enum.map
        fun p => (p.2, p.1 + 1)) := rfl
  rw [hls]
  have hsperm : (if rev then
      pySorted (fun a b =>
        decide ((dictGet count a).getD 0 ≤ (dictGet count b).getD 0))
        (count.map Prod.fst)
    else
      pySorted (fun a b =>
        decide ((dictGet count b).getD 0 ≤ (dictGet count a).getD 0))
        (count.map Prod.fst)).Perm (count.map Prod.fst) := by
    cases rev <;> simp only [if_pos, if_neg, Bool.false_eq_true, if_true, if_false] <;>
      exact pySorted_perm _ _
  refine ⟨?_, ?_, ?_⟩
  · rw [enumMap_fst]
    exact hsperm
  · rw [enumMap_fst]
    exact hsperm.symm.nodup hnd
  · rw [enumMap_snd, hsperm.length_eq, List.length_map]

/-- **C3** (witness): on the spec's example mapping. -/
theorem label_sorter_dense_witness :
    ((label_sorter exCount false).map Prod.fst).Perm (exCount.map Prod.fst) ∧
    ((label_sorter exCount false).map Prod.fst).Nodup ∧
    (label_sorter exCount false).map Prod.snd = List.range' 1 exCount.length :=
  label_sorter_dense exCount (by decide) false

/-- **C2**: for every popularity mapping with distinct keys and entries
`(A, a)`, `(B, b)`: in default mode, if `A` has strictly more rows
(`b < a`), `A`'s new label is strictly smaller than `B`'s; in reversed
mode the inequality flips; and on a count tie the key that appears
earlier in the mapping (= first encountered by the Counter, whose dict is
in first-seen insertion order) gets the strictly smaller label in both
modes — Python's `sorted` being stable. -/
theorem label_sorter_popularity_order (count : List (Line × Nat))
    (hnd : (count.map Prod.fst).Nodup) (A B : Line) (a b : Nat)
    (hA : (A, a) ∈ count) (hB : (B, b) ∈ count) :
    (b < a → ∀ la lb, dictGet (label_sorter count false) A = some la →
      dictGet (label_sorter count false) B = some lb → la < lb) ∧
    (b < a → ∀ la lb, dictGet (label_sorter count true) A = some la →
      dictGet (label_sorter count true) B = some lb → lb < la) ∧
    (a = b →
      (∃ i j, i < j ∧ count.get? i = some (A, a) ∧ count.get? j = some (B, b)) →
      ∀ rev la lb, dictGet (label_sorter count rev) A = some la →
        dictGet (label_sorter count rev) B = some lb → la < lb) := by
  obtain ⟨iA0, hA0⟩ := List.mem_iff_get?.mp hA
  obtain ⟨iB0, hB0⟩ := List.mem_iff_get?.mp hB
  have hgA : dictGet count A = some a := dictGet_of_get? hnd hA0
  have hgB : dictGet count B = some b := dictGet_of_get? hnd hB0
  have hAk : A ∈ count.map Prod.fst := List.mem_map_of_mem Prod.fst hA
  have hBk : B ∈ count.map Prod.fst := List.mem_map_of_mem Prod.fst hB
  have htransD : ∀ x y z : Line,
      (decide ((dictGet count y).getD 0 ≤ (dictGet count x).getD 0)) = true →
      (decide ((dictGet count z).getD 0 ≤ (dictGet count y).getD 0)) = true →
      (decide ((dictGet count z).getD 0 ≤ (dictGet count x).getD 0)) = true := by
    intro x y z h1 h2
    simp only [decide_eq_true_eq] at *
    omega
  have htotalD : ∀ x y : Line,
      (decide ((dictGet count y).getD 0 ≤ (dictGet count x).getD 0)) ||
        (decide ((dictGet count x).getD 0 ≤ (dictGet count y).getD 0)) := by
    intro x y
    rcases Nat.le_total ((dictGet count y).getD 0) ((dictGet count x).getD 0) with h | h <;>
      simp [h]
  have htransR : ∀ x y z : Line,
      (decide ((dictGet count x).getD 0 ≤ (dictGet count y).getD 0)) = true →
      (decide ((dictGet count y).getD 0 ≤ (dictGet count z).getD 0)) = true →
      (decide ((dictGet count x).getD 0 ≤ (dictGet count z).getD 0)) = true := by
    intro x y z h1 h2
    simp only [decide_eq_true_eq] at *
    omega
  have htotalR : ∀ x y : Line,
      (decide ((dictGet count x).getD 0 ≤ (dictGet count y).getD 0)) ||
        (decide ((dictGet count y).getD 0 ≤ (dictGet count x).getD 0)) := by
    intro x y
    rcases Nat.le_total ((dictGet count x).getD 0) ((dictGet count y).getD 0) with h | h <;>
      simp [h]
  have hlsF : label_sorter count false =
      ((pySorted (fun x y =>
          decide ((dictGet count y).getD 0 ≤ (dictGet count x).getD 0))
          (count.map Prod.fst)).enum.map fun p => (p.2, p.1 + 1)) := rfl
  have hlsT : label_sorter count true =
      ((pySorted (fun x y =>
          decide ((dictGet count x).getD 0 ≤ (dictGet count y).getD 0))
          (count.map Prod.fst)).enum.map fun p => (p.2, p.1 + 1)) := rfl
  have hndF : (pySorted (fun x y =>
      decide ((dictGet count y).getD 0 ≤ (dictGet count x).getD 0))
      (count.map Prod.fst)).Nodup :=
    (pySorted_perm _ _).symm.nodup hnd
  have hndT : (pySorted (fun x y =>
      decide ((dictGet count x).getD 0 ≤ (dictGet count y).getD 0))
      (count.map Prod.fst)).Nodup :=
    (pySorted_perm _ _).symm.nodup hnd
  refine ⟨?_, ?_, ?_⟩
  · -- default mode, strictly more rows first
    intro hba la lb hla hlb
    have hAB : A ≠ B := by
      intro he
      rw [he, hgB] at hgA
      injection hgA with hgA
      omega
    obtain ⟨iA, iB, hij, hiA, hiB⟩ :=
      before_in_pySorted htransD htotalD hAk hBk hAB
        (by simp only [decide_eq_true_eq, hgA, hgB, Option.getD_some, decide_eq_false_iff_not]; omega)
    rw [hlsF] at hla hlb
    exact label_lt_of_positions hndF hiA hiB hij hla hlb
  · -- reversed mode: strictly fewer rows first
    intro hba la lb hla hlb
    have hAB : B ≠ A := by
      intro he
      rw [he, hgA] at hgB
      injection hgB with hgB
      omega
    obtain ⟨iB, iA, hij, hiB, hiA⟩ :=
      before_in_pySorted htransR htotalR hBk hAk hAB
        (by simp only [decide_eq_true_eq, hgA, hgB, Option.getD_some, decide_eq_false_iff_not]; omega)
    rw [hlsT] at hla hlb
    exact label_lt_of_positions hndT hiB hiA hij hlb hla
  · -- tie: first-seen order wins, in both modes (stability)
    intro hab ⟨i, j, hij, hi, hj⟩ rev la lb hla hlb
    have hkA : (count.map Prod.fst).get? i = some A := by
      rw [List.get?_map, hi]; rfl
    have hkB : (count.map Prod.fst).get? j = some B := by
      rw [List.get?_map, hj]; rfl
    have hsub : List.Sublist [A, B] (count.map Prod.fst) :=
      pair_sublist_of_get? (count.map Prod.fst) hij hkA hkB
    cases rev with
    | false =>
      have habF : (decide ((dictGet count B).getD 0 ≤ (dictGet count A).getD 0)) = true := by
        simp [hgA, hgB, hab]
      obtain ⟨iA, iB, hij', hiA, hiB⟩ :=
        get?_of_pair_sublist (@pair_sublist_pySorted Line
          (fun x y => decide ((dictGet count y).getD 0 ≤ (dictGet count x).getD 0))
          A B habF (count.map Prod.fst) hsub)
      rw [hlsF] at hla hlb
      exact label_lt_of_positions hndF hiA hiB hij' hla hlb
    | true =>
      have habT : (decide ((dictGet count A).getD 0 ≤ (dictGet count B).getD 0)) = true := by
        simp [hgA, hgB, hab]
      obtain ⟨iA, iB, hij', hiA, hiB⟩ :=
        get?_of_pair_sublist (@pair_sublist_pySorted Line
          (fun x y => decide ((dictGet count x).getD 0 ≤ (dictGet count y).getD 0))
          A B habT (count.map Prod.fst) hsub)
      rw [hlsT] at hla hlb
      exact label_lt_of_positions hndT hiA hiB hij' hla hlb

/-- **C2** (witness): on the spec's example mapping, cluster `"5"` (3
rows) gets a strictly smaller default-mode label than cluster `"1"`
(2 rows): 1 < 2. -/
theorem label_sorter_popularity_order_witness :
    dictGet (label_sorter exCount false) ("5".data) = some 1 ∧
    dictGet (label_sorter exCount false) ("1".data) = some 2 ∧ (1 : Nat) < 2 :=
  ⟨by decide, by decide,
    (label_sorter_popularity_order exCount (by decide) ("5".data) ("1".data) 3 2
      (by decide) (by decide)).1 (by omega) 1 2 (by decide) (by decide)⟩

end DWClusterSort
